import Mathlib

/-!
# Verification of the Dockerfile COPY/ADD source-resolution engine

Shallow embedding of the `dockerfile` builder's copy pipeline (`copyInfo`,
`copier`, `calcCopyInfo`, `walkSource`, `downloadSource`,
`performCopyForInfo`, ...), specialized to Unix path semantics: the file is
built with `//go:build !windows`, so the path separator is `"/"` and
`filepath.FromSlash` is the identity.

Machinery the repository consumes from the Go standard library or from
packages outside the sources at hand (`filepath.Base`, `filepath.Match`,
`urlutil.IsURL`, `hashStringSlice`, lazy-source hashing, ...) is modelled
explicitly; each such definition says so in its doc comment.
-/

/-- Go `strings.HasPrefix`. -/
def strHasPrefix (s pre : String) : Bool := pre.data.isPrefixOf s.data

/-- Go `strings.HasSuffix`. -/
def strHasSuffix (s suf : String) : Bool := suf.data.isSuffixOf s.data

/-- Go `strings.TrimPrefix`: remove exactly one copy of the prefix, when present. -/
def strTrimPrefix (s pre : String) : String :=
  if strHasPrefix s pre then ⟨s.data.drop pre.data.length⟩ else s

/-- Go `strings.Split` on the path separator `'/'` (accumulator holds the
current segment, reversed). -/
def splitSlashGo : List Char → List Char → List String
  | [], acc => [⟨acc.reverse⟩]
  | '/' :: rest, acc => ⟨acc.reverse⟩ :: splitSlashGo rest []
  | c :: rest, acc => splitSlashGo rest (c :: acc)

/-- Go `strings.Join`. -/
def joinSep (sep : String) : List String → String
  | [] => ""
  | [x] => x
  | x :: xs => x ++ sep ++ joinSep sep xs

/-- Segment processing of Go `path/filepath.Clean`: drop empty and `"."`
segments, resolve `".."` by popping (the joined path lives under a source
root and `FollowSymlinkInScope` keeps resolution scoped to that root, so
`".."` cannot escape it). -/
def cleanSegs (segs : List String) : List String :=
  segs.foldl
    (fun acc s =>
      if s == "" || s == "." then acc
      else if s == ".." then acc.dropLast
      else acc ++ [s])
    []

/-- The root-relative path a relative path `p` denotes once joined to a root
and cleaned, as `remotecontext.FullPath` / `symlink.FollowSymlinkInScope` do
(`filepath.Join(root, p)` applies `Clean`); `""` denotes the root itself. -/
def cleanRel (p : String) : String :=
  joinSep "/" (cleanSegs (splitSlashGo p.data []))

/-- A file-system entry of a build source, identified by its path relative to
the source root. `hash` is the content hash the source reports for the entry
(`builder.Source.Hash`); `none` models a failing `Hash` call. -/
structure FSEntry where
  path : String
  isDir : Bool
  hash : Option String := none
deriving Repr, DecidableEq

/-- A `builder.Source`: a root directory plus the tree below it, `entries`
listed in file-system enumeration order (the order `filepath.WalkDir` visits
them). The root directory itself is not listed. -/
structure Source where
  root : String
  entries : List FSEntry
deriving Repr, DecidableEq

/-- `remotecontext.StatAt`: stat the relative path `p` under the source root.
A path that cleans to `""` denotes the source root, an existing directory. -/
def Source.statAt (s : Source) (p : String) : Option FSEntry :=
  if cleanRel p == "" then some { path := "", isDir := true }
  else s.entries.find? (fun e => e.path == cleanRel p)

/-- `builder.Source.Hash` of the entry at relative path `p`. -/
def Source.hashAt (s : Source) (p : String) : Option String :=
  (s.statAt p).bind (fun e => e.hash)

/-- Whether the entry at relative path `q` is visited by `filepath.WalkDir`
rooted at the relative path `p`: the walk visits `p` itself and everything
beneath it. When `p` cleans to `""` the walk root is the source root, whose
own visit is the `rel == "."` case the walk callbacks skip. -/
def inWalk (p q : String) : Bool :=
  let c := cleanRel p
  if c == "" then true
  else q == c || strHasPrefix q (c ++ "/")

/-- Lexicographic comparison of character lists, by code point. -/
def lexLeChars : List Char → List Char → Bool
  | [], _ => true
  | _ :: _, [] => false
  | a :: as, b :: bs =>
    if a = b then lexLeChars as bs
    else decide (a.toNat < b.toNat)

/-- Byte/code-point lexicographic order on strings, as Go `sort.Strings`
compares them. -/
def strLeB (a b : String) : Bool := lexLeChars a.data b.data

/-- Go `sort.Strings`: sort lexicographically (any deterministic comparison
sort; insertion sort here). -/
def sortStrings (l : List String) : List String :=
  List.insertionSort (fun a b => strLeB a b = true) l

theorem charToNatInj {a b : Char} (h : a.toNat = b.toNat) : a = b := by
  have ha := Char.ofNat_toNat a
  rw [h, Char.ofNat_toNat] at ha
  exact ha.symm

theorem lexLeChars_total : ∀ x y : List Char, lexLeChars x y = true ∨ lexLeChars y x = true := by
  intro x
  induction x with
  | nil => intro y; left; rfl
  | cons a as ih =>
    intro y
    cases y with
    | nil => right; rfl
    | cons b bs =>
      by_cases hab : a = b
      · subst hab
        simpa only [lexLeChars, if_pos rfl] using ih bs
      · have hne : a.toNat ≠ b.toNat := fun h => hab (charToNatInj h)
        rcases Nat.lt_or_ge a.toNat b.toNat with h | h
        · left; simp [lexLeChars, hab, h]
        · right
          simp only [lexLeChars, if_neg (Ne.symm hab), decide_eq_true_eq]
          omega

theorem lexLeChars_trans :
    ∀ x y z : List Char, lexLeChars x y = true → lexLeChars y z = true → lexLeChars x z = true := by
  intro x
  induction x with
  | nil => intro y z _ _; rfl
  | cons a as ih =>
    intro y z hxy hyz
    cases y with
    | nil => simp [lexLeChars] at hxy
    | cons b bs =>
      cases z with
      | nil => simp [lexLeChars] at hyz
      | cons c cs =>
        by_cases hab : a = b
        · subst hab
          by_cases hbc : a = c
          · subst hbc
            simp only [lexLeChars, if_pos rfl] at hxy hyz ⊢
            exact ih bs cs hxy hyz
          · simp only [lexLeChars, if_pos rfl] at hxy
            simpa only [lexLeChars, if_neg hbc] using hyz
        · by_cases hbc : b = c
          · subst hbc
            simpa only [lexLeChars, if_neg hab] using hxy
          · have hac : a ≠ c := by
              simp only [lexLeChars, if_neg hab, decide_eq_true_eq] at hxy
              simp only [lexLeChars, if_neg hbc, decide_eq_true_eq] at hyz
              intro h
              subst h
              omega
            simp only [lexLeChars, if_neg hab, decide_eq_true_eq] at hxy
            simp only [lexLeChars, if_neg hbc, decide_eq_true_eq] at hyz
            simp only [lexLeChars, if_neg hac, decide_eq_true_eq]
            omega

theorem lexLeChars_antisymm :
    ∀ x y : List Char, lexLeChars x y = true → lexLeChars y x = true → x = y := by
  intro x
  induction x with
  | nil =>
    intro y _ hyx
    cases y with
    | nil => rfl
    | cons b bs => simp [lexLeChars] at hyx
  | cons a as ih =>
    intro y hxy hyx
    cases y with
    | nil => simp [lexLeChars] at hxy
    | cons b bs =>
      by_cases hab : a = b
      · subst hab
        simp only [lexLeChars, if_pos rfl] at hxy hyx
        rw [ih bs hxy hyx]
      · simp only [lexLeChars, if_neg hab, decide_eq_true_eq] at hxy
        simp only [lexLeChars, if_neg (Ne.symm hab), decide_eq_true_eq] at hyx
        omega

instance : IsTotal String (fun a b => strLeB a b = true) :=
  ⟨fun a b => lexLeChars_total a.data b.data⟩

instance : IsTrans String (fun a b => strLeB a b = true) :=
  ⟨fun a b c => lexLeChars_trans a.data b.data c.data⟩

instance : IsAntisymm String (fun a b => strLeB a b = true) := by
  refine ⟨fun a b h₁ h₂ => ?_⟩
  cases a
  cases b
  exact congrArg String.mk (lexLeChars_antisymm _ _ h₁ h₂)

theorem sortStrings_perm (l : List String) : (sortStrings l).Perm l :=
  List.perm_insertionSort _ l

theorem sortStrings_sorted (l : List String) :
    (sortStrings l).Sorted (fun a b => strLeB a b = true) :=
  List.sorted_insertionSort _ l

theorem sortStrings_eq_of_perm {l₁ l₂ : List String} (hyp : l₁.Perm l₂) :
    sortStrings l₁ = sortStrings l₂ :=
  List.eq_of_perm_of_sorted
    ((sortStrings_perm l₁).trans (hyp.trans (sortStrings_perm l₂).symm))
    (sortStrings_sorted l₁) (sortStrings_sorted l₂)

/-- 32-bit FNV-1a, the stand-in digest for this development (the spec fixes
no digest algorithm: it is "an implementation choice, not a wire contract"). -/
def fnv1a (s : String) : Nat :=
  s.data.foldl (fun h c => ((h ^^^ c.toNat) * 16777619) % 4294967296) 2166136261

/-- Modelled from the spec: `hashStringSlice` (not under src/) — "The combined
fingerprint is a digest over the sorted, concatenated list tagged with a
directory-kind prefix": `kind + ":" + digest(joined items)`. -/
def hashStringSlice (kind : String) (items : List String) : String :=
  kind ++ ":" ++ toString (fnv1a (joinSep "," items))

/-- `walkSource`: walk the directory at `origPath`, collect `source.Hash` of
every visited entry whose path relative to the source root is not `"."`,
skip entries whose hash fails, and sort the collected hashes
(`sort.Strings`). -/
def walkSource (s : Source) (origPath : String) : List String :=
  sortStrings ((s.entries.filter (fun e => inWalk origPath e.path)).filterMap (fun e => e.hash))

/-- The member collection exactly as claim C2 words it: a per-member
fingerprint for every entry of the subtree except the root entry of the
subtree itself. Spec-comparison definition, to be diffed against
`walkSource`. -/
def walkSourceClaimed (s : Source) (origPath : String) : List String :=
  sortStrings
    (((s.entries.filter (fun e => inWalk origPath e.path)).filter
        (fun e => e.path != cleanRel origPath)).filterMap (fun e => e.hash))

/-- A source with a directory `d` holding one file `d/a`; the lazy source
reports hash `hd` for the directory entry and `ha` for the file. -/
def srcC2 : Source :=
  { root := "R",
    entries := [{ path := "d", isDir := true, hash := some "hd" },
                { path := "d/a", isDir := false, hash := some "ha" }] }

/-- `srcC2` with the opposite file-system enumeration order. -/
def srcC2swapped : Source :=
  { root := "R",
    entries := [{ path := "d/a", isDir := false, hash := some "ha" },
                { path := "d", isDir := true, hash := some "hd" }] }

/-- C2 (amended): for a directory source, the fingerprint digests the
lexicographically sorted list of the per-member hashes of every walked entry
whose path relative to the context root is not `"."` — this includes the
walked directory itself unless it is the context root — and the result is
invariant under any permutation of the file-system enumeration order. -/
theorem walkSource_dir_fingerprint (s₁ s₂ : Source) (p : String)
    (hperm : s₁.entries.Perm s₂.entries) :
    walkSource s₁ p = walkSource s₂ p ∧
    hashStringSlice "dir" (walkSource s₁ p) = hashStringSlice "dir" (walkSource s₂ p) ∧
    (walkSource s₁ p).Sorted (fun a b => strLeB a b = true) ∧
    (∀ e ∈ s₁.entries, inWalk p e.path = true → ∀ hh, e.hash = some hh →
        hh ∈ walkSource s₁ p) := by
  have hp : ((s₁.entries.filter fun e => inWalk p e.path).filterMap (fun e => e.hash)).Perm
      ((s₂.entries.filter fun e => inWalk p e.path).filterMap (fun e => e.hash)) :=
    (hperm.filter _).filterMap _
  have h1 : walkSource s₁ p = walkSource s₂ p := sortStrings_eq_of_perm hp
  refine ⟨h1, congrArg _ h1, sortStrings_sorted _, ?_⟩
  intro e he hin hh hhash
  have hmem : hh ∈ (s₁.entries.filter fun e => inWalk p e.path).filterMap (fun e => e.hash) :=
    List.mem_filterMap.mpr ⟨e, List.mem_filter.mpr ⟨he, hin⟩, hhash⟩
  exact ((sortStrings_perm _).mem_iff).mpr hmem

/-- C2 witness: the fingerprint of directory `d` is the same for the two
enumeration orders of `srcC2`, and both member hashes (including the walked
directory's own) occur in the sorted member list. -/
theorem walkSource_dir_fingerprint_witness :
    srcC2.entries.Perm srcC2swapped.entries ∧
    (walkSource srcC2 "d" = walkSource srcC2swapped "d" ∧
     hashStringSlice "dir" (walkSource srcC2 "d")
       = hashStringSlice "dir" (walkSource srcC2swapped "d") ∧
     (walkSource srcC2 "d").Sorted (fun a b => strLeB a b = true) ∧
     (∀ e ∈ srcC2.entries, inWalk "d" e.path = true → ∀ hh, e.hash = some hh →
        hh ∈ walkSource srcC2 "d")) :=
  ⟨by decide, walkSource_dir_fingerprint srcC2 srcC2swapped "d" (by decide)⟩

/-- C2 counterexample: walking directory `d` includes the fingerprint of the
subtree root entry `d` itself (its path relative to the context root is `"d"`,
not `"."`), so the member list — and with it the directory fingerprint —
differs from the root-skipping computation the claim describes. -/
theorem walkSource_counterexample :
    walkSource srcC2 "d" = ["ha", "hd"] ∧
    walkSourceClaimed srcC2 "d" = ["ha"] ∧
    walkSource srcC2 "d" ≠ walkSourceClaimed srcC2 "d" ∧
    hashStringSlice "dir" (walkSource srcC2 "d")
      ≠ hashStringSlice "dir" (walkSourceClaimed srcC2 "d") :=
  ⟨by decide, by decide, by decide, by decide⟩

/-- Models Go `path/filepath.Match` (standard library): single-segment
shell-glob matching where `*` matches any run of non-separator characters and
`?` exactly one; character classes are omitted here, as no claim under
verification exercises them. -/
def globMatch : List Char → List Char → Bool
  | [], [] => true
  | [], _ :: _ => false
  | '*' :: ps, [] => globMatch ps []
  | '*' :: ps, c :: ss =>
    globMatch ps (c :: ss) || (c != '/' && globMatch ('*' :: ps) ss)
  | '?' :: _, [] => false
  | '?' :: ps, c :: ss => c != '/' && globMatch ps ss
  | _ :: _, [] => false
  | p :: ps, c :: ss => p == c && globMatch ps ss
termination_by p s => (p.length, s.length)

/-- Errors the resolution pipeline surfaces (`errors.Errorf` / wrapped
conditions, by user-visible meaning). -/
inductive CopyErr where
  | notFound (path : String)
  | notFoundInContext (path : String)
  | hashFailed (path : String)
  | missingBuildContext
  | cannotDetermineFilename (orig : String)
  | noSourceFiles
  | multiSourceDest (cmd : String)
  | downloadFailed (msg : String)
deriving Repr, DecidableEq

/-- Observable effects of a resolver session: layer creation/release
(`NewRWLayer`/`Release`), temp-dir removal (`os.RemoveAll`), path-cache
traffic (`Load`/`Store`), and content hashing (`Hash` on a file, the
directory walk). -/
inductive Ev where
  | createLayer (root : String)
  | releaseLayer (root : String)
  | removeDir (dir : String)
  | cacheLoad (key : String)
  | cacheStore (key : String) (val : String)
  | hashFile (path : String)
  | walkDir (path : String)
deriving Repr, DecidableEq

/-- `copyInfo`: metadata about one resolved source file of a copy
instruction. -/
structure copyInfo where
  root : String
  path : String
  hash : String
  noDecompress : Bool := false
deriving Repr, DecidableEq

/-- An `imageMount`: the prior-image source of `COPY --from`, with its image
identity and the tree that `NewRWLayer` + `remotecontext.NewLazySource`
materialize when the layer is first dereferenced. -/
structure ImageMount where
  imageID : String
  layerRoot : String
  layerEntries : List FSEntry
deriving Repr, DecidableEq

/-- The `copier`: per-instruction resolver session state. `pathCache` is the
shared path→hash cache (`sync.Map`, newest binding first); `download` is the
injected `sourceDownloader`; `activeLayer` the lazily created RW layer (by
its root); `tmpPaths` the temp download dirs owned by the session. -/
structure copier where
  imageSource : Option ImageMount
  source : Option Source
  pathCache : List (String × String)
  download : String → Except String (Source × String)
  activeLayer : Option String := none
  tmpPaths : List String := []

/-- `pathCache.Load`. -/
def cacheLookup (c : List (String × String)) (k : String) : Option String :=
  (c.find? (fun kv => kv.1 == k)).map (fun kv => kv.2)

/-- The lazy RW-layer materialization at the top of `calcCopyInfo`: when
copying from an image source and no layer is active yet, create the RW layer
and re-root the copier's source at it (`imageSource.NewRWLayer()` followed by
`remotecontext.NewLazySource(rwLayer.Root())`); guarded by the
`activeLayer == nil` check against repeated calls. -/
def layerInit (o : copier) : copier × List Ev :=
  match o.imageSource with
  | some im =>
    match o.activeLayer with
    | none =>
      ({ o with activeLayer := some im.layerRoot,
                source := some { root := im.layerRoot, entries := im.layerEntries } },
       [Ev.createLayer im.layerRoot])
    | some _ => (o, [])
  | none => (o, [])

/-- The path normalization in `calcCopyInfo`: `filepath.FromSlash` (identity
on Unix), then `strings.TrimPrefix` of one leading separator, then of one
leading `"./"`. -/
def normalizePath (p : String) : String :=
  strTrimPrefix (strTrimPrefix p "/") "./"

/-- Modelled from the spec: `containsWildcards` (not under src/) — whether a
path mentions a shell-style glob metacharacter (`*`, `?`, or a character
class opener), a backslash escaping the character after it. -/
def containsWildcardsCh : List Char → Bool
  | [] => false
  | '\\' :: [] => false
  | '\\' :: _ :: rest => containsWildcardsCh rest
  | c :: rest => (c == '*' || c == '?' || c == '[') || containsWildcardsCh rest

/-- Modelled from the spec: `containsWildcards` on a path string. -/
def containsWildcards (p : String) : Bool := containsWildcardsCh p.data

/-- `copyInfoForFile`: stat the path (`remotecontext.StatAt`); a missing path
is a not-found error carrying the user-relative path; a directory yields the
zero `copyInfo` (empty hash) for the caller's directory branch; a file is
hashed and tagged with the `"file:"` kind prefix. -/
def copyInfoForFile (src : Source) (p : String) : Except CopyErr copyInfo × List Ev :=
  match src.statAt p with
  | none => (.error (.notFound p), [])
  | some e =>
    if e.isDir then (.ok { root := "", path := "", hash := "" }, [])
    else
      match src.hashAt p with
      | none => (.error (.hashFailed p), [Ev.hashFile p])
      | some h => (.ok { root := src.root, path := p, hash := "file:" ++ h }, [Ev.hashFile p])

/-- `copier.storeInPathCache`: store under `ImageID() + path` whenever the
resolution ran against an image source (`im != nil`). -/
def storeInPathCache (o : copier) (im : Option ImageMount) (p hsh : String) :
    copier × List Ev :=
  match im with
  | some im =>
    ({ o with pathCache := (im.imageID ++ p, hsh) :: o.pathCache },
     [Ev.cacheStore (im.imageID ++ p) hsh])
  | none => (o, [])

/-- A resolution step's outcome: resolved infos or an error, the copier state
after the step, and the trace of observable effects. -/
abbrev CResult := Except CopyErr (List copyInfo) × copier × List Ev

/-- The error wrapping in `calcCopyInfo`: a not-found path with no image
source becomes "file not found in build context or excluded by
.dockerignore"; every other error is returned as-is. -/
def wrapContextErr (im : Option ImageMount) (e : CopyErr) : CopyErr :=
  match e, im with
  | .notFound q, none => .notFoundInContext q
  | e, _ => e

/-- The single-file-or-directory tail of `calcCopyInfo`: try the single-file
case, store a non-empty hash in the path cache; otherwise walk the directory,
digest the sorted member hashes with the `"dir"` kind and store that. -/
def calcCopyInfoFileOrDir (o : copier) (src : Source) (p : String) (evs : List Ev) : CResult :=
  match copyInfoForFile src p with
  | (.error e, evs2) => (.error (wrapContextErr o.imageSource e), o, evs ++ evs2)
  | (.ok info, evs2) =>
    if info.hash != "" then
      let so := storeInPathCache o o.imageSource p info.hash
      (.ok [info], so.1, evs ++ evs2 ++ so.2)
    else
      let subfiles := walkSource src p
      let hsh := hashStringSlice "dir" subfiles
      let so := storeInPathCache o o.imageSource p hsh
      (.ok [{ root := src.root, path := p, hash := hsh }], so.1,
       evs ++ evs2 ++ [Ev.walkDir p] ++ so.2)

/-- The single-path tail of `calcCopyInfo` after normalization and wildcard
dispatch: probe the path cache when resolving against a prior image with a
known identity (`imageSource != nil && ImageID() != ""`); a hit returns one
cached `copyInfo` immediately; otherwise fall through to hashing. -/
def calcCopyInfoSingle (o : copier) (src : Source) (p : String) : CResult :=
  match o.imageSource with
  | some im =>
    if im.imageID != "" then
      match cacheLookup o.pathCache (im.imageID ++ p) with
      | some h =>
        (.ok [{ root := src.root, path := p, hash := h }], o,
         [Ev.cacheLoad (im.imageID ++ p)])
      | none => calcCopyInfoFileOrDir o src p [Ev.cacheLoad (im.imageID ++ p)]
    else calcCopyInfoFileOrDir o src p []
  | none => calcCopyInfoFileOrDir o src p []

/-- `calcCopyInfo` with `allowWildcards = false`, the form `copyWithWildcards`
invokes for each match (`validateCopySourcePath` is a no-op on Unix builds):
lazy layer init, missing-context check, path normalization, then single-path
resolution. -/
def calcCopyInfoNoWC (o : copier) (origPath : String) : CResult :=
  let li := layerInit o
  match li.1.source with
  | none => (.error .missingBuildContext, li.1, li.2)
  | some src =>
    let p := normalizePath origPath
    let r := calcCopyInfoSingle li.1 src p
    (r.1, r.2.1, li.2 ++ r.2.2)

/-- The walk of `copyWithWildcards`: visit the source entries in enumeration
order, resolve every entry whose root-relative path matches the pattern
through `calcCopyInfo(rel, false)`, accumulating infos, state and effects;
the first error aborts the walk. -/
def copyWithWildcardsGo (pat : String) :
    List FSEntry → List copyInfo → copier → List Ev → CResult
  | [], infos, o, evs => (.ok infos, o, evs)
  | e :: rest, infos, o, evs =>
    if globMatch pat.data e.path.data then
      match calcCopyInfoNoWC o e.path with
      | (.ok sub, o2, evs2) => copyWithWildcardsGo pat rest (infos ++ sub) o2 (evs ++ evs2)
      | (.error err, o2, evs2) => (.error err, o2, evs ++ evs2)
    else copyWithWildcardsGo pat rest infos o evs

/-- `copier.copyWithWildcards`. -/
def copyWithWildcards (o : copier) (src : Source) (pat : String) : CResult :=
  copyWithWildcardsGo pat src.entries [] o []

/-- `copier.calcCopyInfo`. -/
def calcCopyInfo (o : copier) (origPath : String) (allowWildcards : Bool) : CResult :=
  let li := layerInit o
  match li.1.source with
  | none => (.error .missingBuildContext, li.1, li.2)
  | some src =>
    let p := normalizePath origPath
    if allowWildcards && containsWildcards p then
      let r := copyWithWildcards li.1 src p
      (r.1, r.2.1, li.2 ++ r.2.2)
    else
      let r := calcCopyInfoSingle li.1 src p
      (r.1, r.2.1, li.2 ++ r.2.2)

/-- `copier.Cleanup`: remove every tracked temporary download directory,
reset the list, and release the active layer when one exists (then clear it).
Total — the Go method returns no error. -/
def cleanup (o : copier) : copier × List Ev :=
  let evs := o.tmpPaths.map Ev.removeDir
  match o.activeLayer with
  | some l => ({ o with tmpPaths := [], activeLayer := none }, evs ++ [Ev.releaseLayer l])
  | none => ({ o with tmpPaths := [] }, evs)

theorem strData_append (s t : String) : (s ++ t).data = s.data ++ t.data := by
  cases s
  cases t
  rfl

theorem fileTag_ne_dirTag (x y : String) : ("file:" ++ x) ≠ ("dir:" ++ y) := by
  intro h
  have hd := congrArg String.data h
  rw [strData_append, strData_append] at hd
  simp only [show ("file:" : String).data = ['f', 'i', 'l', 'e', ':'] from rfl,
    show ("dir:" : String).data = ['d', 'i', 'r', ':'] from rfl, List.cons_append,
    List.cons.injEq] at hd
  exact absurd hd.1 (by decide)

/-- The source holding one regular file `f` whose content hash is `h`. -/
def srcC8 : Source :=
  { root := "R", entries := [{ path := "f", isDir := false, hash := some "h" }] }

/-- C8: a fingerprint `copyInfoForFile` produces for a file carries the
`"file:"` kind tag, a directory fingerprint carries the `"dir:"` kind tag,
and no file fingerprint ever equals a directory fingerprint, even when the
underlying digest bytes coincide. -/
theorem file_dir_fingerprints_disjoint (src : Source) (p : String) (ci : copyInfo)
    (evs : List Ev) (hok : copyInfoForFile src p = (.ok ci, evs)) (hne : ci.hash ≠ "") :
    (∃ h0, ci.hash = "file:" ++ h0) ∧
    (∀ items, ∃ d0, hashStringSlice "dir" items = "dir:" ++ d0) ∧
    (∀ items, ci.hash ≠ hashStringSlice "dir" items) := by
  have hdir : ∀ items, hashStringSlice "dir" items
      = "dir:" ++ toString (fnv1a (joinSep "," items)) := fun _ => rfl
  have hfile : ∃ h0, ci.hash = "file:" ++ h0 := by
    cases hstat : src.statAt p with
    | none => simp [copyInfoForFile, hstat] at hok
    | some e =>
      cases hd : e.isDir with
      | true =>
        simp [copyInfoForFile, hstat, hd] at hok
        exact absurd (by rw [← hok.1]) hne
      | false =>
        cases hh : src.hashAt p with
        | none => simp [copyInfoForFile, hstat, hd, hh] at hok
        | some h0 =>
          simp [copyInfoForFile, hstat, hd, hh] at hok
          exact ⟨h0, by rw [← hok.1]⟩
  refine ⟨hfile, fun items => ⟨_, hdir items⟩, fun items => ?_⟩
  obtain ⟨h0, hh0⟩ := hfile
  rw [hh0, hdir items]
  exact fileTag_ne_dirTag _ _

/-- C8 witness: the concrete file fingerprint `"file:h"` differs from the
directory fingerprint of an arbitrary member list, here `["x"]`. -/
theorem file_dir_fingerprints_disjoint_witness :
    ("file:h" : String) ≠ hashStringSlice "dir" ["x"] :=
  (file_dir_fingerprints_disjoint srcC8 "f"
      { root := "R", path := "f", hash := "file:h" } [Ev.hashFile "f"]
      rfl (by decide)).2.2 ["x"]

def Ev.isCreate : Ev → Bool
  | .createLayer _ => true
  | _ => false

def Ev.isRelease : Ev → Bool
  | .releaseLayer _ => true
  | _ => false

def Ev.isLoad : Ev → Bool
  | .cacheLoad _ => true
  | _ => false

def Ev.isStore : Ev → Bool
  | .cacheStore _ _ => true
  | _ => false

def Ev.isHash : Ev → Bool
  | .hashFile _ => true
  | .walkDir _ => true
  | _ => false

/-- Two copier states that agree on everything except the path cache. -/
def sameButCache (o o2 : copier) : Prop :=
  o2.imageSource = o.imageSource ∧ o2.source = o.source ∧
  o2.activeLayer = o.activeLayer ∧ o2.tmpPaths = o.tmpPaths ∧
  o2.download = o.download

theorem copyInfoForFile_events (src : Source) (p : String) :
    ∀ e ∈ (copyInfoForFile src p).2, e = Ev.hashFile p := by
  cases hstat : src.statAt p with
  | none => simp [copyInfoForFile, hstat]
  | some fe =>
    cases hd : fe.isDir with
    | true => simp [copyInfoForFile, hstat, hd]
    | false =>
      cases hh : src.hashAt p with
      | none => simp [copyInfoForFile, hstat, hd, hh]
      | some h0 => simp [copyInfoForFile, hstat, hd, hh]

theorem storeInPathCache_members (o : copier) (im : Option ImageMount) (p hsh : String) :
    ∀ e ∈ (storeInPathCache o im p hsh).2, (∃ k, e = Ev.cacheStore k hsh) ∧ im ≠ none := by
  cases im <;> simp [storeInPathCache]

theorem storeInPathCache_state (o : copier) (im : Option ImageMount) (p hsh : String) :
    sameButCache o (storeInPathCache o im p hsh).1 := by
  cases im <;> exact ⟨rfl, rfl, rfl, rfl, rfl⟩

theorem fileOrDir_members (o : copier) (src : Source) (p : String) (evs : List Ev) :
    ∀ e ∈ (calcCopyInfoFileOrDir o src p evs).2.2,
      e ∈ evs ∨ e = Ev.hashFile p ∨ e = Ev.walkDir p ∨
        ((∃ k v, e = Ev.cacheStore k v) ∧ o.imageSource ≠ none) := by
  intro e he
  rw [calcCopyInfoFileOrDir] at he
  cases hcf : copyInfoForFile src p with
  | mk r evs2 =>
    have hevs2 : ∀ x ∈ evs2, x = Ev.hashFile p := by
      have := copyInfoForFile_events src p
      rw [hcf] at this
      exact this
    rw [hcf] at he
    cases r with
    | error err =>
      dsimp only [] at he
      simp only [List.mem_append] at he
      rcases he with he | he
      · exact Or.inl he
      · exact Or.inr (Or.inl (hevs2 e he))
    | ok info =>
      dsimp only [] at he
      by_cases hhash : info.hash != ""
      · rw [if_pos hhash] at he
        simp only [List.mem_append] at he
        rcases he with (he | he) | he
        · exact Or.inl he
        · exact Or.inr (Or.inl (hevs2 e he))
        · have := storeInPathCache_members o o.imageSource p info.hash e he
          exact Or.inr (Or.inr (Or.inr ⟨⟨this.1.choose, info.hash, this.1.choose_spec⟩, this.2⟩))
      · rw [if_neg hhash] at he
        simp only [List.mem_append, List.mem_singleton] at he
        rcases he with ((he | he) | he) | he
        · exact Or.inl he
        · exact Or.inr (Or.inl (hevs2 e he))
        · exact Or.inr (Or.inr (Or.inl he))
        · have := storeInPathCache_members o o.imageSource p _ e he
          exact Or.inr (Or.inr (Or.inr ⟨⟨this.1.choose, _, this.1.choose_spec⟩, this.2⟩))

theorem fileOrDir_state (o : copier) (src : Source) (p : String) (evs : List Ev) :
    sameButCache o (calcCopyInfoFileOrDir o src p evs).2.1 := by
  rw [calcCopyInfoFileOrDir]
  cases hcf : copyInfoForFile src p with
  | mk r evs2 =>
    cases r with
    | error err => exact ⟨rfl, rfl, rfl, rfl, rfl⟩
    | ok info =>
      dsimp only []
      by_cases hhash : info.hash != ""
      · rw [if_pos hhash]
        exact storeInPathCache_state o o.imageSource p info.hash
      · rw [if_neg hhash]
        exact storeInPathCache_state o o.imageSource p _

theorem single_members (o : copier) (src : Source) (p : String) :
    ∀ e ∈ (calcCopyInfoSingle o src p).2.2,
      ((∃ k, e = Ev.cacheLoad k) ∧ ∃ im, o.imageSource = some im ∧ im.imageID ≠ "") ∨
      e = Ev.hashFile p ∨ e = Ev.walkDir p ∨
      ((∃ k v, e = Ev.cacheStore k v) ∧ o.imageSource ≠ none) := by
  intro e he
  rw [calcCopyInfoSingle] at he
  cases him : o.imageSource with
  | none =>
    rw [him] at he
    dsimp only [] at he
    rcases fileOrDir_members o src p [] e he with hmem | hh | hw | hs
    · simp at hmem
    · exact Or.inr (Or.inl hh)
    · exact Or.inr (Or.inr (Or.inl hw))
    · exact absurd him hs.2
  | some im =>
    rw [him] at he
    dsimp only [] at he
    by_cases hid : im.imageID != ""
    · rw [if_pos hid] at he
      cases hl : cacheLookup o.pathCache (im.imageID ++ p) with
      | some h =>
        rw [hl] at he
        simp only [List.mem_singleton] at he
        exact Or.inl ⟨⟨_, he⟩, im, rfl, by simpa using hid⟩
      | none =>
        rw [hl] at he
        rcases fileOrDir_members o src p _ e he with hmem | hh | hw | hs
        · simp only [List.mem_singleton] at hmem
          exact Or.inl ⟨⟨_, hmem⟩, im, rfl, by simpa using hid⟩
        · exact Or.inr (Or.inl hh)
        · exact Or.inr (Or.inr (Or.inl hw))
        · exact Or.inr (Or.inr (Or.inr ⟨hs.1, by simp⟩))
    · rw [if_neg hid] at he
      rcases fileOrDir_members o src p [] e he with hmem | hh | hw | hs
      · simp at hmem
      · exact Or.inr (Or.inl hh)
      · exact Or.inr (Or.inr (Or.inl hw))
      · exact Or.inr (Or.inr (Or.inr ⟨hs.1, by simp⟩))

theorem single_state (o : copier) (src : Source) (p : String) :
    sameButCache o (calcCopyInfoSingle o src p).2.1 := by
  rw [calcCopyInfoSingle]
  cases him : o.imageSource with
  | none => exact fileOrDir_state o src p []
  | some im =>
    dsimp only []
    by_cases hid : im.imageID != ""
    · rw [if_pos hid]
      cases hl : cacheLookup o.pathCache (im.imageID ++ p) with
      | some h => exact ⟨rfl, rfl, rfl, rfl, rfl⟩
      | none => exact fileOrDir_state o src p _
    · rw [if_neg hid]
      exact fileOrDir_state o src p []

theorem layerInit_cases (o : copier) :
    layerInit o = (o, []) ∨
    ∃ im, o.imageSource = some im ∧ o.activeLayer = none ∧
      layerInit o =
        ({ o with activeLayer := some im.layerRoot,
                  source := some { root := im.layerRoot, entries := im.layerEntries } },
         [Ev.createLayer im.layerRoot]) := by
  rw [layerInit]
  cases him : o.imageSource with
  | none => exact Or.inl rfl
  | some im =>
    cases hal : o.activeLayer with
    | none => exact Or.inr ⟨im, rfl, rfl, rfl⟩
    | some l => exact Or.inl rfl

theorem layerInit_preserved (o : copier) :
    (layerInit o).1.imageSource = o.imageSource ∧ (layerInit o).1.pathCache = o.pathCache ∧
    (layerInit o).1.tmpPaths = o.tmpPaths ∧ (layerInit o).1.download = o.download := by
  rcases layerInit_cases o with h | ⟨im, _, _, h⟩ <;> rw [h] <;> exact ⟨rfl, rfl, rfl, rfl⟩

theorem layerInit_ready (o : copier)
    (h : o.imageSource = none ∨ o.activeLayer ≠ none) : layerInit o = (o, []) := by
  rw [layerInit]
  cases him : o.imageSource with
  | none => rfl
  | some im =>
    cases hal : o.activeLayer with
    | none =>
      rcases h with h | h
      · rw [him] at h; exact absurd h (by simp)
      · exact absurd hal h
    | some l => rfl

theorem layerInit_members (o : copier) :
    ∀ e ∈ (layerInit o).2, ∃ r, e = Ev.createLayer r := by
  rcases layerInit_cases o with h | ⟨im, _, _, h⟩ <;> rw [h] <;> simp

theorem calcCopyInfo_false_members (o : copier) (p : String) :
    ∀ e ∈ (calcCopyInfo o p false).2.2,
      e ∈ (layerInit o).2 ∨
      ((∃ k, e = Ev.cacheLoad k) ∧
        ∃ im, (layerInit o).1.imageSource = some im ∧ im.imageID ≠ "") ∨
      e = Ev.hashFile (normalizePath p) ∨ e = Ev.walkDir (normalizePath p) ∨
      ((∃ k v, e = Ev.cacheStore k v) ∧ (layerInit o).1.imageSource ≠ none) := by
  intro e he
  rw [calcCopyInfo] at he
  cases hsrc : (layerInit o).1.source with
  | none =>
    rw [hsrc] at he
    exact Or.inl he
  | some src =>
    rw [hsrc] at he
    dsimp only [] at he
    simp only [Bool.false_and, Bool.false_eq_true, if_false, List.mem_append] at he
    rcases he with he | he
    · exact Or.inl he
    · exact Or.inr (single_members (layerInit o).1 src (normalizePath p) e he)

/-- C1 (amended): in single-path resolution, the path cache is consulted only
when resolving against a prior image layer with a known identity
(`imageSource` non-nil and `ImageID()` non-empty) — never for the local build
context — and a successful load short-circuits hashing entirely, returning
exactly one `copyInfo` carrying the cached fingerprint; with no image source
the cache is neither consulted nor populated; but the cache is populated
whenever an image source is present, even when its `ImageID()` is empty (the
store key then degenerates to the bare path). -/
theorem calcCopyInfo_pathCache_discipline (o : copier) (p : String) :
    (o.imageSource = none →
      ∀ e ∈ (calcCopyInfo o p false).2.2, e.isLoad = false ∧ e.isStore = false) ∧
    (∀ im, o.imageSource = some im → im.imageID = "" →
      ∀ e ∈ (calcCopyInfo o p false).2.2, e.isLoad = false) ∧
    (∀ im src h, o.imageSource = some im → im.imageID ≠ "" →
      (layerInit o).1.source = some src →
      cacheLookup o.pathCache (im.imageID ++ normalizePath p) = some h →
      calcCopyInfo o p false =
        (.ok [{ root := src.root, path := normalizePath p, hash := h }],
         (layerInit o).1,
         (layerInit o).2 ++ [Ev.cacheLoad (im.imageID ++ normalizePath p)])) := by
  refine ⟨?_, ?_, ?_⟩
  · intro him e he
    rcases calcCopyInfo_false_members o p e he with hli | hld | hh | hw | hst
    · rw [layerInit_ready o (Or.inl him)] at hli
      simp at hli
    · rw [(layerInit_preserved o).1, him] at hld
      obtain ⟨_, im, habs, _⟩ := hld
      exact absurd habs (by simp)
    · subst hh; exact ⟨rfl, rfl⟩
    · subst hw; exact ⟨rfl, rfl⟩
    · rw [(layerInit_preserved o).1, him] at hst
      exact absurd rfl hst.2
  · intro im him hid e he
    rcases calcCopyInfo_false_members o p e he with hli | hld | hh | hw | hst
    · obtain ⟨r, hr⟩ := layerInit_members o e hli
      subst hr; rfl
    · rw [(layerInit_preserved o).1, him] at hld
      obtain ⟨_, im2, heq, hne⟩ := hld
      rw [Option.some.injEq] at heq
      exact absurd hid (heq ▸ hne)
    · subst hh; rfl
    · subst hw; rfl
    · obtain ⟨⟨k, v, hkv⟩, _⟩ := hst
      subst hkv; rfl
  · intro im src h him hid hsrc hl
    rw [calcCopyInfo, hsrc]
    dsimp only []
    simp only [Bool.false_and, Bool.false_eq_true, if_false]
    rw [calcCopyInfoSingle]
    have him2 : (layerInit o).1.imageSource = some im := by
      rw [(layerInit_preserved o).1, him]
    rw [him2]
    dsimp only []
    have hid2 : (im.imageID != "") = true := by simpa using hid
    rw [if_pos hid2]
    have hpc : (layerInit o).1.pathCache = o.pathCache := (layerInit_preserved o).2.1
    rw [hpc, hl]

/-- A prior-image source with an empty (unknown) image identity. -/
def imC1 : ImageMount :=
  { imageID := "", layerRoot := "L",
    layerEntries := [{ path := "a", isDir := false, hash := some "h" }] }

def oC1 : copier :=
  { imageSource := some imC1, source := none, pathCache := [],
    download := fun _ => .error "unused", activeLayer := none, tmpPaths := [] }

/-- C1 counterexample: resolving `a` against a prior-image source whose
`ImageID()` is empty still populates the path cache — `storeInPathCache`
only checks `im != nil`, so a `Store` occurs under the degenerate bare-path
key `"a"` — contradicting "populated only when the source is a prior image
layer with a known identity". -/
theorem calcCopyInfo_stores_without_imageID :
    imC1.imageID = "" ∧
    Ev.cacheStore "a" "file:h" ∈ (calcCopyInfo oC1 "a" false).2.2 ∧
    (calcCopyInfo oC1 "a" false).2.1.pathCache = [("a", "file:h")] :=
  ⟨rfl, by decide, by decide⟩

/-- A prior-image source with known identity `i` and a pre-populated cache
entry for the path `a`. -/
def imC1w : ImageMount := { imageID := "i", layerRoot := "L", layerEntries := [] }

def oC1w : copier :=
  { imageSource := some imC1w, source := none, pathCache := [("ia", "HH")],
    download := fun _ => .error "unused", activeLayer := none, tmpPaths := [] }

/-- C1 witness: with image identity `i` and a cache entry under key `"ia"`,
resolving `a` consults the cache and the hit returns one `copyInfo` carrying
the cached fingerprint `HH`, with no hashing event. -/
theorem calcCopyInfo_pathCache_discipline_witness :
    calcCopyInfo oC1w "a" false =
      (.ok [{ root := "L", path := "a", hash := "HH" }],
       (layerInit oC1w).1,
       (layerInit oC1w).2 ++ [Ev.cacheLoad "ia"]) :=
  (calcCopyInfo_pathCache_discipline oC1w "a").2.2 imC1w
    { root := "L", entries := [] } "HH" rfl (by decide) rfl rfl

theorem sameButCache_refl (o : copier) : sameButCache o o := ⟨rfl, rfl, rfl, rfl, rfl⟩

theorem sameButCache_trans {o1 o2 o3 : copier}
    (h1 : sameButCache o1 o2) (h2 : sameButCache o2 o3) : sameButCache o1 o3 :=
  ⟨h2.1.trans h1.1, h2.2.1.trans h1.2.1, h2.2.2.1.trans h1.2.2.1,
   h2.2.2.2.1.trans h1.2.2.2.1, h2.2.2.2.2.trans h1.2.2.2.2⟩

theorem single_create_free (o : copier) (src : Source) (p : String) :
    ∀ e ∈ (calcCopyInfoSingle o src p).2.2, e.isCreate = false ∧ e.isRelease = false := by
  intro e he
  rcases single_members o src p e he with ⟨⟨k, hk⟩, _⟩ | hh | hw | ⟨⟨k, v, hkv⟩, _⟩
  · subst hk; exact ⟨rfl, rfl⟩
  · subst hh; exact ⟨rfl, rfl⟩
  · subst hw; exact ⟨rfl, rfl⟩
  · subst hkv; exact ⟨rfl, rfl⟩

theorem noWC_ready (o : copier) (q : String)
    (h : o.imageSource = none ∨ o.activeLayer ≠ none) :
    sameButCache o (calcCopyInfoNoWC o q).2.1 ∧
    ∀ e ∈ (calcCopyInfoNoWC o q).2.2, e.isCreate = false ∧ e.isRelease = false := by
  rw [calcCopyInfoNoWC, layerInit_ready o h]
  dsimp only []
  cases hsrc : o.source with
  | none => exact ⟨sameButCache_refl o, by simp⟩
  | some src =>
    dsimp only []
    refine ⟨single_state o src (normalizePath q), ?_⟩
    intro e he
    simp only [List.nil_append] at he
    exact single_create_free o src (normalizePath q) e he

theorem wildcardsGo_ready (pat : String) :
    ∀ (es : List FSEntry) (infos : List copyInfo) (o : copier) (evs : List Ev),
      (o.imageSource = none ∨ o.activeLayer ≠ none) →
      sameButCache o (copyWithWildcardsGo pat es infos o evs).2.1 ∧
      (∀ e ∈ (copyWithWildcardsGo pat es infos o evs).2.2,
        e ∈ evs ∨ (e.isCreate = false ∧ e.isRelease = false)) := by
  intro es
  induction es with
  | nil =>
    intro infos o evs h
    exact ⟨sameButCache_refl o, fun e he => Or.inl he⟩
  | cons a rest ih =>
    intro infos o evs h
    rw [copyWithWildcardsGo]
    by_cases hm : globMatch pat.data a.path.data
    · rw [if_pos hm]
      have hno := noWC_ready o a.path h
      cases hcc : calcCopyInfoNoWC o a.path with
      | mk r s =>
        cases s with
        | mk o2 evs2 =>
          rw [hcc] at hno
          have h2 : o2.imageSource = none ∨ o2.activeLayer ≠ none := by
            rcases h with h | h
            · exact Or.inl (hno.1.1.trans h)
            · exact Or.inr (by rw [hno.1.2.2.1]; exact h)
          cases r with
          | ok sub =>
            dsimp only []
            have hrec := ih (infos ++ sub) o2 (evs ++ evs2) h2
            refine ⟨sameButCache_trans hno.1 hrec.1, ?_⟩
            intro e he
            rcases hrec.2 e he with hin | hfree
            · rcases List.mem_append.mp hin with hin | hin
              · exact Or.inl hin
              · exact Or.inr (hno.2 e hin)
            · exact Or.inr hfree
          | error err =>
            dsimp only []
            refine ⟨hno.1, ?_⟩
            intro e he
            rcases List.mem_append.mp he with hin | hin
            · exact Or.inl hin
            · exact Or.inr (hno.2 e hin)
    · rw [if_neg hm]
      exact ih infos o evs h

theorem layerInit_post_ready (o : copier) :
    (layerInit o).1.imageSource = none ∨ (layerInit o).1.activeLayer ≠ none := by
  rw [layerInit]
  cases him : o.imageSource with
  | none => exact Or.inl him
  | some im =>
    cases hal : o.activeLayer with
    | none => exact Or.inr (by simp)
    | some l => exact Or.inr (by rw [hal]; simp)

theorem layerInit_count (o : copier) :
    (layerInit o).2.countP (fun e => e.isCreate) ≤ 1 := by
  rcases layerInit_cases o with h | ⟨im, _, _, h⟩ <;> rw [h] <;>
    simp [List.countP_cons, Ev.isCreate]

theorem calcCopyInfo_ready (o : copier) (p : String) (wc : Bool)
    (h : o.imageSource = none ∨ o.activeLayer ≠ none) :
    sameButCache o (calcCopyInfo o p wc).2.1 ∧
    ∀ e ∈ (calcCopyInfo o p wc).2.2, e.isCreate = false ∧ e.isRelease = false := by
  rw [calcCopyInfo, layerInit_ready o h]
  dsimp only []
  cases hsrc : o.source with
  | none => exact ⟨sameButCache_refl o, by simp⟩
  | some src =>
    dsimp only []
    by_cases hwc : wc && containsWildcards (normalizePath p)
    · rw [if_pos hwc]
      rw [copyWithWildcards]
      have := wildcardsGo_ready (normalizePath p) src.entries [] o [] h
      refine ⟨this.1, ?_⟩
      intro e he
      simp only [List.nil_append] at he
      rcases this.2 e he with hin | hfree
      · simp at hin
      · exact hfree
    · rw [if_neg hwc]
      dsimp only []
      refine ⟨single_state o src (normalizePath p), ?_⟩
      intro e he
      simp only [List.nil_append] at he
      exact single_create_free o src (normalizePath p) e he

theorem calcCopyInfo_create_count (o : copier) (p : String) (wc : Bool) :
    (calcCopyInfo o p wc).2.2.countP (fun e => e.isCreate) ≤ 1 := by
  rw [calcCopyInfo]
  cases hsrc : (layerInit o).1.source with
  | none =>
    dsimp only []
    exact layerInit_count o
  | some src =>
    dsimp only []
    by_cases hwc : wc && containsWildcards (normalizePath p)
    · rw [if_pos hwc]
      dsimp only []
      rw [List.countP_append]
      have hz : (copyWithWildcards (layerInit o).1 src (normalizePath p)).2.2.countP
          (fun e => e.isCreate) = 0 := by
        rw [List.countP_eq_zero]
        intro e he
        rw [copyWithWildcards] at he
        rcases (wildcardsGo_ready (normalizePath p) src.entries [] (layerInit o).1 []
            (layerInit_post_ready o)).2 e he with hin | hfree
        · simp at hin
        · simp [hfree.1]
      rw [hz]
      simpa using layerInit_count o
    · rw [if_neg hwc]
      dsimp only []
      rw [List.countP_append]
      have hz : (calcCopyInfoSingle (layerInit o).1 src (normalizePath p)).2.2.countP
          (fun e => e.isCreate) = 0 := by
        rw [List.countP_eq_zero]
        intro e he
        simp [(single_create_free (layerInit o).1 src (normalizePath p) e he).1]
      rw [hz]
      simpa using layerInit_count o

theorem cleanup_spec (o : copier) :
    (∀ d ∈ o.tmpPaths, Ev.removeDir d ∈ (cleanup o).2) ∧
    (cleanup o).1.tmpPaths = [] ∧ (cleanup o).1.activeLayer = none ∧
    ((cleanup o).2.countP (fun e => e.isRelease) ≤ 1) ∧
    (o.activeLayer = none → ∀ e ∈ (cleanup o).2, e.isRelease = false) := by
  rw [cleanup]
  cases hal : o.activeLayer with
  | none =>
    dsimp only []
    refine ⟨?_, rfl, rfl, ?_, ?_⟩
    · intro d hd
      exact List.mem_map.mpr ⟨d, hd, rfl⟩
    · have : (o.tmpPaths.map Ev.removeDir).countP (fun e => e.isRelease) = 0 := by
        rw [List.countP_eq_zero]
        intro e he
        obtain ⟨d, _, hd⟩ := List.mem_map.mp he
        simp [← hd, Ev.isRelease]
      simp [this]
    · intro _ e he
      obtain ⟨d, _, hd⟩ := List.mem_map.mp he
      rw [← hd]
      rfl
  | some l =>
    dsimp only []
    refine ⟨?_, rfl, rfl, ?_, ?_⟩
    · intro d hd
      exact List.mem_append.mpr (Or.inl (List.mem_map.mpr ⟨d, hd, rfl⟩))
    · rw [List.countP_append]
      have : (o.tmpPaths.map Ev.removeDir).countP (fun e => e.isRelease) = 0 := by
        rw [List.countP_eq_zero]
        intro e he
        obtain ⟨d, _, hd⟩ := List.mem_map.mp he
        simp [← hd, Ev.isRelease]
      simp [this, List.countP_cons, Ev.isRelease]
    · intro habs
      exact absurd habs (by simp)

theorem calcCopyInfo_release_free (o : copier) (p : String) (wc : Bool) :
    ∀ e ∈ (calcCopyInfo o p wc).2.2, e.isRelease = false := by
  intro e he
  rw [calcCopyInfo] at he
  cases hsrc : (layerInit o).1.source with
  | none =>
    rw [hsrc] at he
    dsimp only [] at he
    obtain ⟨r, hr⟩ := layerInit_members o e he
    subst hr
    rfl
  | some src =>
    rw [hsrc] at he
    dsimp only [] at he
    by_cases hwc : wc && containsWildcards (normalizePath p)
    · rw [if_pos hwc] at he
      dsimp only [] at he
      rcases List.mem_append.mp he with hin | hin
      · obtain ⟨r, hr⟩ := layerInit_members o e hin
        subst hr
        rfl
      · rw [copyWithWildcards] at hin
        rcases (wildcardsGo_ready (normalizePath p) src.entries [] (layerInit o).1 []
            (layerInit_post_ready o)).2 e hin with h0 | h0
        · simp at h0
        · exact h0.2
    · rw [if_neg hwc] at he
      dsimp only [] at he
      rcases List.mem_append.mp he with hin | hin
      · obtain ⟨r, hr⟩ := layerInit_members o e hin
        subst hr
        rfl
      · exact (single_create_free (layerInit o).1 src (normalizePath p) e hin).2

theorem cleanup_quiescent (o : copier)
    (h1 : o.tmpPaths = []) (h2 : o.activeLayer = none) : (cleanup o).2 = [] := by
  rw [cleanup, h1, h2]
  rfl

/-- C9: the RW layer is created at most once per resolution (guarded by the
`activeLayer == nil` check, so repeated wildcard-driven `calcCopyInfo` calls
never create a second layer), never created when only the local build context
is copied from, and released only by `Cleanup`; `Cleanup` removes every
tracked temporary download directory, clears the list and the layer, releases
at most once, releases nothing when no layer was ever created, and a second
call performs no operation (and, being total, returns normally). -/
theorem copier_layer_lifecycle (o : copier) (p : String) (wc : Bool) :
    (∀ l, o.activeLayer = some l →
      (calcCopyInfo o p wc).2.1.activeLayer = some l ∧
      ∀ e ∈ (calcCopyInfo o p wc).2.2, e.isCreate = false) ∧
    (o.imageSource = none →
      (calcCopyInfo o p wc).2.1.activeLayer = o.activeLayer ∧
      ∀ e ∈ (calcCopyInfo o p wc).2.2, e.isCreate = false) ∧
    ((calcCopyInfo o p wc).2.2.countP (fun e => e.isCreate) ≤ 1) ∧
    (∀ e ∈ (calcCopyInfo o p wc).2.2, e.isRelease = false) ∧
    (∀ d ∈ o.tmpPaths, Ev.removeDir d ∈ (cleanup o).2) ∧
    ((cleanup o).2.countP (fun e => e.isRelease) ≤ 1) ∧
    (o.activeLayer = none → ∀ e ∈ (cleanup o).2, e.isRelease = false) ∧
    ((cleanup (cleanup o).1).2 = []) := by
  refine ⟨?_, ?_, calcCopyInfo_create_count o p wc, ?_, (cleanup_spec o).1,
    (cleanup_spec o).2.2.2.1, (cleanup_spec o).2.2.2.2, ?_⟩
  · intro l hl
    have hr := calcCopyInfo_ready o p wc (Or.inr (by rw [hl]; simp))
    exact ⟨hr.1.2.2.1.trans hl, fun e he => (hr.2 e he).1⟩
  · intro him
    have hr := calcCopyInfo_ready o p wc (Or.inl him)
    exact ⟨hr.1.2.2.1, fun e he => (hr.2 e he).1⟩
  · exact calcCopyInfo_release_free o p wc
  · exact cleanup_quiescent (cleanup o).1 (cleanup_spec o).2.1 (cleanup_spec o).2.2.1

def oC9 : copier :=
  { imageSource := some imC1w, source := some { root := "L", entries := [] },
    pathCache := [], download := fun _ => .error "unused",
    activeLayer := some "L", tmpPaths := ["t"] }

/-- C9 witness: with an already-active layer `L` and one tracked temp dir,
resolution keeps the layer and creates no second one; cleanup removes the
tracked temp dir, and a second cleanup performs no operation at all. -/
theorem copier_layer_lifecycle_witness :
    ((calcCopyInfo oC9 "a" false).2.1.activeLayer = some "L" ∧
      ∀ e ∈ (calcCopyInfo oC9 "a" false).2.2, e.isCreate = false) ∧
    Ev.removeDir "t" ∈ (cleanup oC9).2 ∧
    (cleanup (cleanup oC9).1).2 = [] :=
  ⟨(copier_layer_lifecycle oC9 "a" false).1 "L" rfl,
   (copier_layer_lifecycle oC9 "a" false).2.2.2.2.1 "t" (by decide),
   (copier_layer_lifecycle oC9 "a" false).2.2.2.2.2.2.2⟩

theorem strHasPrefix_append (pre s : String) : strHasPrefix (pre ++ s) pre = true := by
  rw [strHasPrefix, strData_append]
  exact List.isPrefixOf_iff_prefix.mpr (List.prefix_append _ _)

theorem strTrimPrefix_of_not (s pre : String) (h : strHasPrefix s pre = false) :
    strTrimPrefix s pre = s := by
  rw [strTrimPrefix, h]
  simp

theorem strTrimPrefix_append (pre s : String) : strTrimPrefix (pre ++ s) pre = s := by
  rw [strTrimPrefix, strHasPrefix_append, if_pos rfl]
  have hd : (pre ++ s).data.drop pre.data.length = s.data := by
    rw [strData_append]
    exact List.drop_left' rfl
  rw [hd]

theorem dotSlash_no_slash (p : String) : strHasPrefix ("./" ++ p) "/" = false := rfl

theorem normalizePath_id (p : String)
    (h1 : strHasPrefix p "/" = false) (h2 : strHasPrefix p "./" = false) :
    normalizePath p = p := by
  rw [normalizePath, strTrimPrefix_of_not p "/" h1, strTrimPrefix_of_not p "./" h2]

theorem normalizePath_slash (p : String) (h2 : strHasPrefix p "./" = false) :
    normalizePath ("/" ++ p) = p := by
  rw [normalizePath, strTrimPrefix_append "/" p, strTrimPrefix_of_not p "./" h2]

theorem normalizePath_dotSlash (p : String) :
    normalizePath ("./" ++ p) = p := by
  rw [normalizePath, strTrimPrefix_of_not _ "/" (dotSlash_no_slash p),
    strTrimPrefix_append "./" p]

/-- C10 (amended): for every path that itself starts with neither the path
separator nor `"./"`, resolving it, its separator-prefixed form and its
`"./"`-prefixed form (wildcards disabled) yield identical results — the
normalization trims exactly one leading separator and then one leading
`"./"`, so one level of prefixing is absorbed. -/
theorem calcCopyInfo_normalization (o : copier) (p : String)
    (h1 : strHasPrefix p "/" = false) (h2 : strHasPrefix p "./" = false) :
    calcCopyInfo o ("/" ++ p) false = calcCopyInfo o p false ∧
    calcCopyInfo o ("./" ++ p) false = calcCopyInfo o p false := by
  have e1 : normalizePath ("/" ++ p) = normalizePath p := by
    rw [normalizePath_slash p h2, normalizePath_id p h1 h2]
  have e2 : normalizePath ("./" ++ p) = normalizePath p := by
    rw [normalizePath_dotSlash p, normalizePath_id p h1 h2]
  constructor
  · simp only [calcCopyInfo, e1]
  · simp only [calcCopyInfo, e2]

/-- A plain local build context holding one file `a`. -/
def srcC10 : Source :=
  { root := "R", entries := [{ path := "a", isDir := false, hash := some "h" }] }

def oC10 : copier :=
  { imageSource := none, source := some srcC10, pathCache := [],
    download := fun _ => .error "unused", activeLayer := none, tmpPaths := [] }

/-- C10 counterexample: for `p = "/a"` the claim fails — resolving `p` trims
the leading separator and yields a `copyInfo` for relative path `"a"`, while
resolving `"/" ++ p = "//a"` trims only one separator and yields a `copyInfo`
for relative path `"/a"` (the cleaned lookup still finds the file, but the
recorded path and cache key differ), so the results are not identical. -/
theorem calcCopyInfo_normalization_counterexample :
    ((calcCopyInfo oC10 "/a" false).1.toOption.getD []).map copyInfo.path = ["a"] ∧
    ((calcCopyInfo oC10 ("/" ++ "/a") false).1.toOption.getD []).map copyInfo.path = ["/a"] ∧
    calcCopyInfo oC10 ("/" ++ "/a") false ≠ calcCopyInfo oC10 "/a" false := by
  refine ⟨by decide, by decide, ?_⟩
  intro h
  have hpaths := congrArg (fun r => (r.1.toOption.getD []).map copyInfo.path) h
  exact absurd hpaths (by decide)

/-- C10 witness: for the unprefixed path `a`, all three spellings resolve
identically. -/
theorem calcCopyInfo_normalization_witness :
    calcCopyInfo oC10 ("/" ++ "a") false = calcCopyInfo oC10 "a" false ∧
    calcCopyInfo oC10 ("./" ++ "a") false = calcCopyInfo oC10 "a" false :=
  calcCopyInfo_normalization oC10 "a" (by decide) (by decide)

theorem dropWhile_head_not {α : Type} (q : α → Bool) :
    ∀ (l : List α) (x : α) (xs : List α), l.dropWhile q = x :: xs → q x = false := by
  intro l
  induction l with
  | nil => intro x xs h; simp [List.dropWhile] at h
  | cons a as ih =>
    intro x xs h
    by_cases hq : q a = true
    · rw [List.dropWhile_cons, if_pos hq] at h
      exact ih x xs h
    · rw [List.dropWhile_cons, if_neg hq] at h
      rw [List.cons.injEq] at h
      rw [← h.1]
      simpa using hq

/-- The fixed sentinel file name used when a download's filename cannot be
derived (`unnamedFilename` in copy.go). -/
def unnamedFilename : String := "__unnamed__"

def dropTrailingSep (l : List Char) : List Char :=
  (l.reverse.dropWhile (fun c => c == '/')).reverse

def lastSegmentOf (l : List Char) : List Char :=
  (l.reverse.takeWhile (fun c => c != '/')).reverse

/-- Models Go `path/filepath.Base` (standard library), Unix rules: the empty
path gives `"."`; trailing separators are removed; a path of only separators
gives `"/"`; otherwise the part after the final separator remains. -/
def baseName (p : String) : String :=
  if p.data.isEmpty then "."
  else
    let l := dropTrailingSep p.data
    if l.isEmpty then "/"
    else ⟨lastSegmentOf l⟩

theorem baseName_ne_empty (p : String) (h : p ≠ "") : baseName p ≠ "" := by
  have hdata : ¬p.data.isEmpty = true := by
    cases p with
    | mk d =>
      cases d with
      | nil => exact absurd rfl h
      | cons c cs => simp
  rw [baseName, if_neg hdata]
  by_cases hl : (dropTrailingSep p.data).isEmpty = true
  · rw [if_pos hl]
    intro hcon
    exact absurd (congrArg String.data hcon) (by simp)
  · rw [if_neg hl]
    intro hcon
    have hnil : lastSegmentOf (dropTrailingSep p.data) = [] := by
      simpa using congrArg String.data hcon
    rw [lastSegmentOf] at hnil
    have hrev : (dropTrailingSep p.data).reverse
        = p.data.reverse.dropWhile (fun c => c == '/') := by
      rw [dropTrailingSep, List.reverse_reverse]
    cases hcase : p.data.reverse.dropWhile (fun c => c == '/') with
    | nil =>
      refine hl ?_
      rw [dropTrailingSep, hcase]
      rfl
    | cons c cs =>
      have hc : (c == '/') = false := dropWhile_head_not _ _ c cs hcase
      rw [hrev, hcase, List.takeWhile_cons, if_pos (by simp [bne, hc])] at hnil
      simp at hnil

/-- A parsed HTTP GET response, as `downloadSource` consumes it:
`contentDispositionFilename` is the `filename` parameter of the parsed
`Content-Disposition` header (`mime.ParseMediaType`; `none` when the header
is absent or unparsable), `lastModified` the raw `Last-Modified` header value
(`none` when the header is absent; `http.Header.Get` then returns `""`). -/
structure HTTPResponse where
  body : String
  contentDispositionFilename : Option String := none
  lastModified : Option String := none
deriving Repr, DecidableEq

/-- `getFilenameForDownload`: guess the filename from the URL path — its
base, when the path is non-empty and does not end with `"/"` — else from the
`Content-Disposition` `filename` parameter — its base, when the parameter is
present, non-empty and does not end with `"/"` — else return `""`. -/
def getFilenameForDownload (path : String) (resp : HTTPResponse) : String :=
  let fromHeader :=
    match resp.contentDispositionFilename with
    | some fn =>
      if fn != "" && !strHasSuffix fn "/" then
        let f := baseName fn
        if f != "" then f else ""
      else ""
    | none => ""
  if path != "" && !strHasSuffix path "/" then
    let f := baseName path
    if f != "" then f else fromHeader
  else fromHeader

/-- The derivation rule exactly as claim C5 words it (spec-comparison
definition): the base of the URL's final path segment when the URL path is
non-empty and does not end with `"/"`; otherwise the `Content-Disposition`
`filename` parameter itself — not its base — when present and not ending
with `"/"`; otherwise the empty string. -/
def getFilenameClaimed (path : String) (resp : HTTPResponse) : String :=
  if path != "" && !strHasSuffix path "/" then baseName path
  else
    match resp.contentDispositionFilename with
    | some fn => if fn != "" && !strHasSuffix fn "/" then fn else ""
    | none => ""

/-- Claim C5 as amended: like the claim, except the `Content-Disposition`
fallback also takes the base of the `filename` parameter, exactly as the URL
branch does. -/
def getFilenameAmended (path : String) (resp : HTTPResponse) : String :=
  if path != "" && !strHasSuffix path "/" then baseName path
  else
    match resp.contentDispositionFilename with
    | some fn => if fn != "" && !strHasSuffix fn "/" then baseName fn else ""
    | none => ""

/-- C5 (amended): `getFilenameForDownload` derives the filename as the base
of the URL's final path segment when the URL path is non-empty and does not
end with `"/"`; otherwise the base of the `Content-Disposition` `filename`
parameter when that parameter is present, non-empty and does not end with
`"/"`; otherwise the empty string. -/
theorem getFilename_spec (path : String) (resp : HTTPResponse) :
    getFilenameForDownload path resp = getFilenameAmended path resp := by
  rw [getFilenameForDownload, getFilenameAmended]
  by_cases hp : (path != "" && !strHasSuffix path "/") = true
  · rw [if_pos hp, if_pos hp]
    dsimp only []
    have hpne : path ≠ "" := by
      intro hcon
      subst hcon
      simp at hp
    rw [if_pos (by simpa using baseName_ne_empty path hpne)]
  · rw [if_neg hp, if_neg hp]
    cases hcd : resp.contentDispositionFilename with
    | none => rfl
    | some fn =>
      dsimp only []
      by_cases hfn : (fn != "" && !strHasSuffix fn "/") = true
      · rw [if_pos hfn, if_pos hfn]
        by_cases hb : (baseName fn != "") = true
        · rw [if_pos hb]
        · rw [if_neg hb]
          have : baseName fn = "" := by simpa using hb
          rw [this]
      · rw [if_neg hfn, if_neg hfn]

/-- C5 counterexample: with empty URL path and `Content-Disposition`
filename parameter `dir/a.txt`, the code derives the base `a.txt`, not the
parameter value itself as the claim states. -/
theorem getFilename_counterexample :
    getFilenameForDownload "" { body := "", contentDispositionFilename := some "dir/a.txt" }
      = "a.txt" ∧
    getFilenameClaimed "" { body := "", contentDispositionFilename := some "dir/a.txt" }
      = "dir/a.txt" ∧
    getFilenameForDownload "" { body := "", contentDispositionFilename := some "dir/a.txt" }
      ≠ getFilenameClaimed "" { body := "", contentDispositionFilename := some "dir/a.txt" } :=
  ⟨by decide, by decide, by decide⟩

/-- The ambient world a `downloadSource` call runs in: whether `url.Parse`
succeeds, the parsed URL's path component, the result of
`remotecontext.GetWithStatusError` (a non-2xx status or transport failure is
the error case), the temporary directory `longpath.MkdirTemp` hands out, the
stdlib `http.ParseTime` parser (abstracted as a function to a numeric
timestamp), and the current wall-clock time `now` — present in the model
precisely so that one can state that the code never reads it. -/
structure DownloadEnv where
  urlOK : Bool := true
  urlPath : String
  resp : Except String HTTPResponse
  tmpDir : String
  parseHTTPTime : String → Option Nat
  now : Nat := 0

/-- What a successful `downloadSource` materializes: the lazy source rooted
at the temp dir, the derived filename it returns (possibly `""`), the actual
name and content of the temp file created, and the file's modification and
access times as set by `system.Chtimes` (`0` is the zero time). -/
structure DownloadResult where
  source : Source
  filename : String
  fileName : String
  fileBody : String
  mtime : Nat
  atime : Nat
deriving Repr, DecidableEq

/-- Modelled from the spec: the hash `remotecontext.NewLazySource` (not under
src/) reports for the downloaded file — a deterministic digest of the file
content. -/
def lazyFileHash (body : String) : String := toString (fnv1a body)

/-- `downloadSource`: parse the URL, issue the GET, derive the filename,
create the temp file (named by the derived filename, or by the sentinel
`unnamedFilename` when it is empty), stream the body, set the file's
access/modification time from `Last-Modified` (the zero time when the header
is absent, empty or unparsable), and wrap the temp dir as a lazy source,
returning it with the derived filename. -/
def downloadSource (env : DownloadEnv) : Except String DownloadResult :=
  if !env.urlOK then .error "invalid URL"
  else
    match env.resp with
    | .error e => .error e
    | .ok resp =>
      let filename := getFilenameForDownload env.urlPath resp
      let tmpFileName := if filename == "" then unnamedFilename else filename
      let mTime : Nat :=
        match resp.lastModified with
        | some lm =>
          if lm != "" then
            match env.parseHTTPTime lm with
            | some t => t
            | none => 0
          else 0
        | none => 0
      .ok { source := { root := env.tmpDir,
                        entries := [{ path := tmpFileName, isDir := false,
                                      hash := some (lazyFileHash resp.body) }] },
            filename := filename, fileName := tmpFileName, fileBody := resp.body,
            mtime := mTime, atime := mTime }

/-- C6: a completed download's file gets access and modification times equal
to the parsed `Last-Modified` value when that header is present, non-empty
and parseable, and the zero time in every other case; the result never
depends on the ambient wall clock. -/
theorem downloadSource_mtime (env : DownloadEnv) (resp : HTTPResponse) (dr : DownloadResult)
    (hr : env.resp = .ok resp) (hok : downloadSource env = .ok dr) :
    (∀ lm t, resp.lastModified = some lm → lm ≠ "" → env.parseHTTPTime lm = some t →
      dr.mtime = t ∧ dr.atime = t) ∧
    ((resp.lastModified = none ∨ resp.lastModified = some "" ∨
      (∃ lm, resp.lastModified = some lm ∧ env.parseHTTPTime lm = none)) →
      dr.mtime = 0 ∧ dr.atime = 0) ∧
    (∀ n, downloadSource { env with now := n } = downloadSource env) := by
  by_cases hu : (!env.urlOK) = true
  · rw [downloadSource, if_pos hu] at hok
    exact absurd hok (by simp)
  · rw [downloadSource, if_neg hu, hr] at hok
    dsimp only [] at hok
    rw [Except.ok.injEq] at hok
    refine ⟨?_, ?_, ?_⟩
    · intro lm t hlm hne hparse
      rw [hlm] at hok
      dsimp only [] at hok
      have hm := congrArg DownloadResult.mtime hok
      have ha := congrArg DownloadResult.atime hok
      dsimp only [] at hm ha
      rw [if_pos (show (lm != "") = true by simpa using hne), hparse] at hm ha
      dsimp only [] at hm ha
      exact ⟨hm.symm, ha.symm⟩
    · intro hcase
      rcases hcase with hn | he | ⟨lm, hlm, hparse⟩
      · rw [hn] at hok
        dsimp only [] at hok
        have hm := congrArg DownloadResult.mtime hok
        have ha := congrArg DownloadResult.atime hok
        dsimp only [] at hm ha
        exact ⟨hm.symm, ha.symm⟩
      · rw [he] at hok
        dsimp only [] at hok
        have hm := congrArg DownloadResult.mtime hok
        have ha := congrArg DownloadResult.atime hok
        dsimp only [] at hm ha
        rw [if_neg (show ¬("" != "") = true by simp)] at hm ha
        exact ⟨hm.symm, ha.symm⟩
      · rw [hlm] at hok
        dsimp only [] at hok
        have hm := congrArg DownloadResult.mtime hok
        have ha := congrArg DownloadResult.atime hok
        dsimp only [] at hm ha
        by_cases hlme : (lm != "") = true
        · rw [if_pos hlme, hparse] at hm ha
          dsimp only [] at hm ha
          exact ⟨hm.symm, ha.symm⟩
        · rw [if_neg hlme] at hm ha
          exact ⟨hm.symm, ha.symm⟩
    · intro n
      rfl

/-- C6 witness: a download with `Last-Modified` parsing to `42` stamps the
file with time `42`, independently of the wall clock. -/
theorem downloadSource_mtime_witness :
    (downloadSource
      { urlPath := "/f.txt",
        resp := .ok { body := "B", lastModified := some "LM" },
        tmpDir := "T",
        parseHTTPTime := fun s => if s == "LM" then some 42 else none,
        now := 7 } : Except String DownloadResult).map DownloadResult.mtime = .ok 42 := by
  have h := (downloadSource_mtime
    { urlPath := "/f.txt",
      resp := .ok { body := "B", lastModified := some "LM" },
      tmpDir := "T",
      parseHTTPTime := fun s => if s == "LM" then some 42 else none,
      now := 7 }
    { body := "B", lastModified := some "LM" }
    { source := { root := "T",
                  entries := [{ path := "f.txt", isDir := false,
                                hash := some (lazyFileHash "B") }] },
      filename := "f.txt", fileName := "f.txt", fileBody := "B",
      mtime := 42, atime := 42 }
    rfl rfl).1 "LM" 42 rfl (by decide) (by decide)
  rfl

/-- Modelled from the spec: `urlutil.IsURL` (not under src/) — the URL-vs-local
decision: a source is remote when it is an HTTP(S) URL. -/
def isURL (s : String) : Bool :=
  strHasPrefix s "http://" || strHasPrefix s "https://"

/-- `copier.getCopyInfoForSourcePath`: a non-URL source goes through
`calcCopyInfo` with wildcards allowed; a URL source is downloaded, an empty
derived filename with a directory-like destination fails, an empty derived
filename otherwise falls back to the sentinel name, the temp root is tracked
for cleanup, and the fetched file is hashed into one `copyInfo` whose
`noDecompress` flag is set. -/
def getCopyInfoForSourcePath (o : copier) (orig dest : String) : CResult :=
  if !isURL orig then calcCopyInfo o orig true
  else
    match o.download orig with
    | .error e => (.error (.downloadFailed e), o, [])
    | .ok (remote, path) =>
      if path == "" && strHasSuffix dest "/" then
        (.error (.cannotDetermineFilename orig), o, [])
      else
        let path := if path == "" then unnamedFilename else path
        let o2 := { o with tmpPaths := o.tmpPaths ++ [remote.root] }
        match remote.hashAt path with
        | some h =>
          (.ok [{ root := remote.root, path := path, hash := h, noDecompress := true }],
           o2, [Ev.hashFile path])
        | none => (.error (.hashFailed path), o2, [Ev.hashFile path])

/-- `copier.getCopyInfosForSourcePaths`: resolve each source in declared
order, threading state; the first error aborts; an empty combined result is
the "no source files were specified" error. -/
def getCopyInfosForSourcePaths (o : copier) (sources : List String) (dest : String) : CResult :=
  let step :=
    fun (acc : CResult) (orig : String) =>
      match acc with
      | (.error _, _, _) => acc
      | (.ok infos, o, evs) =>
        match getCopyInfoForSourcePath o orig dest with
        | (.ok sub, o2, evs2) => (.ok (infos ++ sub), o2, evs ++ evs2)
        | (.error e, o2, evs2) => (.error e, o2, evs ++ evs2)
  match sources.foldl step (.ok [], o, []) with
  | (.ok infos, o2, evs) =>
    if infos.isEmpty then (.error .noSourceFiles, o2, evs) else (.ok infos, o2, evs)
  | r => r

/-- `instructions.SourcesAndDest` of a COPY/ADD command. -/
structure SourcesAndDest where
  sourcePaths : List String
  destPath : String
deriving Repr, DecidableEq

/-- `copyInstruction`: a fully parsed COPY or ADD command as passed to
`performCopy` (the caller fills the ownership/decompression fields after
construction). -/
structure copyInstruction where
  cmdName : String
  infos : List copyInfo
  dest : String
  chownStr : String := ""
  allowLocalDecompression : Bool := false
  preserveOwnership : Bool := false
deriving Repr, DecidableEq

/-- `copier.createCopyInstruction`: resolve the sources against the
destination (`filepath.FromSlash` on the destination is the identity on
Unix), then reject more than one resolved source unless the destination ends
with the path separator. -/
def createCopyInstruction (o : copier) (sd : SourcesAndDest) (cmdName : String) :
    Except CopyErr copyInstruction × copier × List Ev :=
  let dest := sd.destPath
  match getCopyInfosForSourcePaths o sd.sourcePaths dest with
  | (.error e, o2, evs) => (.error e, o2, evs)
  | (.ok infos, o2, evs) =>
    if infos.length > 1 && !strHasSuffix dest "/" then
      (.error (.multiSourceDest cmdName), o2, evs)
    else
      (.ok { cmdName := cmdName, infos := infos, dest := dest }, o2, evs)

/-- C3: construction of a copy instruction rejects more than one resolved
source when the destination lacks a trailing separator — at construction,
before anything is copied — and accepts exactly one resolved source with any
destination. -/
theorem createCopyInstruction_multi_source_rule (o : copier) (sd : SourcesAndDest)
    (cmd : String) (infos : List copyInfo) (o2 : copier) (evs : List Ev)
    (hres : getCopyInfosForSourcePaths o sd.sourcePaths sd.destPath = (.ok infos, o2, evs)) :
    (infos.length > 1 → strHasSuffix sd.destPath "/" = false →
      createCopyInstruction o sd cmd = (.error (.multiSourceDest cmd), o2, evs)) ∧
    (infos.length = 1 →
      createCopyInstruction o sd cmd =
        (.ok { cmdName := cmd, infos := infos, dest := sd.destPath }, o2, evs)) := by
  constructor
  · intro hlen hsuffix
    rw [createCopyInstruction, hres]
    dsimp only []
    rw [if_pos]
    simp [hsuffix, hlen]
  · intro hlen
    rw [createCopyInstruction, hres]
    dsimp only []
    rw [if_neg]
    simp [hlen]

/-- C3 witness: a single resolved source (`a` from `srcC10`) is accepted with
the non-directory destination `/dest`. -/
theorem createCopyInstruction_multi_source_rule_witness :
    createCopyInstruction oC10 { sourcePaths := ["a"], destPath := "/dest" } "COPY" =
      (.ok { cmdName := "COPY", infos := [{ root := "R", path := "a", hash := "file:h" }],
             dest := "/dest" }, oC10, [Ev.hashFile "a"]) :=
  (createCopyInstruction_multi_source_rule oC10 { sourcePaths := ["a"], destPath := "/dest" }
    "COPY" [{ root := "R", path := "a", hash := "file:h" }] oC10 [Ev.hashFile "a"] rfl).2 rfl

/-- The daemon-side file system visible to the copy executor: `stat p` models
`os.Stat p` (`none`: not found), and the `isArchive` field of a stat result
models `archive.IsArchivePath p` on that file. -/
structure OSStat where
  isDir : Bool
  isArchive : Bool := false
deriving Repr, DecidableEq

structure OSFS where
  stat : String → Option OSStat

/-- The physical operation `performCopyForInfo` dispatches to: recursive
directory copy (`CopyWithTar`), archive extraction (`Untar`), or plain file
copy (`CopyFileWithTar`), each by source and final destination path. -/
inductive CopyAction where
  | copyDir (src dst : String)
  | untar (src dst : String)
  | copyFileTo (src dst : String)
deriving Repr, DecidableEq

/-- `copyFileOptions` (the archiver and identity are opaque capabilities; the
dispatch only reads `decompress`). -/
structure copyFileOptions where
  decompress : Bool
deriving Repr, DecidableEq

/-- `copyInfo.fullPath`: the in-scope symlink-resolved join of root and
relative path; modelled as the cleaned join (`FollowSymlinkInScope` cleans
the joined path, so any trailing separator of `path` is gone). -/
def fullPathOf (c : copyInfo) : String :=
  if cleanRel c.path == "" then c.root else c.root ++ "/" ++ cleanRel c.path

/-- `performCopyForInfo`: stat the source; a directory is copied recursively;
a file is extracted via Untar only when decompression is allowed, the file is
a recognized archive and the source is not marked `noDecompress`; otherwise
it is plainly copied, into `dest/basename(source)` when the destination is an
existing directory or the declared destination ends with the separator. -/
def performCopyForInfo (fs : OSFS) (dest source : copyInfo) (options : copyFileOptions) :
    Except CopyErr CopyAction :=
  let srcPath := fullPathOf source
  let destPath := fullPathOf dest
  match fs.stat srcPath with
  | none => .error (.notFound srcPath)
  | some st =>
    if st.isDir then .ok (.copyDir srcPath destPath)
    else if options.decompress && st.isArchive && !source.noDecompress then
      .ok (.untar srcPath destPath)
    else
      let destIsDir :=
        match fs.stat destPath with
        | some d => d.isDir
        | none => false
      if destIsDir || strHasSuffix dest.path "/" then
        .ok (.copyFileTo srcPath (destPath ++ "/" ++ baseName source.path))
      else
        .ok (.copyFileTo srcPath destPath)

/-- C4: every `copyInfo` resolved from a URL source carries
`noDecompress = true`, and `performCopyForInfo` never dispatches to the
archive-extraction (`Untar`) branch for a source marked `noDecompress`, even
when decompression is enabled and the file is a recognized archive; such a
file is copied as a plain file (or, if a directory, copied recursively). -/
theorem url_sources_never_untarred (o : copier) (orig dest : String) :
    (∀ infos o2 evs, isURL orig = true →
      getCopyInfoForSourcePath o orig dest = (.ok infos, o2, evs) →
      ∀ ci ∈ infos, ci.noDecompress = true) ∧
    (∀ fs d s opts, s.noDecompress = true →
      (∀ a b, performCopyForInfo fs d s opts ≠ .ok (.untar a b)) ∧
      (∀ st, fs.stat (fullPathOf s) = some st → st.isDir = false →
        ∃ dst, performCopyForInfo fs d s opts = .ok (.copyFileTo (fullPathOf s) dst))) := by
  constructor
  · intro infos o2 evs hurl hres
    rw [getCopyInfoForSourcePath] at hres
    rw [if_neg (by simp [hurl])] at hres
    cases hdl : o.download orig with
    | error e =>
      rw [hdl] at hres
      dsimp only [] at hres
      exact absurd (congrArg (fun r => r.1) hres) (by simp)
    | ok rp =>
      cases rp with
      | mk remote path =>
        rw [hdl] at hres
        dsimp only [] at hres
        by_cases hemp : (path == "" && strHasSuffix dest "/") = true
        · rw [if_pos hemp] at hres
          exact absurd (congrArg (fun r => r.1) hres) (by simp)
        · rw [if_neg hemp] at hres
          cases hh : remote.hashAt (if path == "" then unnamedFilename else path) with
          | none =>
            rw [hh] at hres
            exact absurd (congrArg (fun r => r.1) hres) (by simp)
          | some h =>
            rw [hh] at hres
            have := congrArg (fun r => r.1) hres
            simp only [Except.ok.injEq] at this
            intro ci hci
            rw [← this] at hci
            simp only [List.mem_singleton] at hci
            rw [hci]
  · intro fs d s opts hnd
    constructor
    · intro a b hcon
      rw [performCopyForInfo] at hcon
      cases hstat : fs.stat (fullPathOf s) with
      | none =>
        rw [hstat] at hcon
        exact absurd hcon (by simp)
      | some st =>
        rw [hstat] at hcon
        dsimp only [] at hcon
        by_cases hd : st.isDir = true
        · rw [if_pos hd] at hcon
          exact absurd hcon (by simp)
        · rw [if_neg hd] at hcon
          rw [if_neg (by simp [hnd])] at hcon
          by_cases hdd : ((match fs.stat (fullPathOf d) with
              | some dd => dd.isDir
              | none => false) || strHasSuffix d.path "/") = true
          · rw [if_pos hdd] at hcon
            exact absurd hcon (by simp)
          · rw [if_neg hdd] at hcon
            exact absurd hcon (by simp)
    · intro st hstat hdir
      rw [performCopyForInfo, hstat]
      dsimp only []
      rw [if_neg (by simp [hdir]), if_neg (by simp [hnd])]
      by_cases hdd : ((match fs.stat (fullPathOf d) with
          | some dd => dd.isDir
          | none => false) || strHasSuffix d.path "/") = true
      · rw [if_pos hdd]
        exact ⟨_, rfl⟩
      · rw [if_neg hdd]
        exact ⟨_, rfl⟩

def remoteC4 : Source :=
  { root := "T", entries := [{ path := "f.tgz", isDir := false, hash := some "rh" }] }

def oC4 : copier :=
  { imageSource := none, source := none, pathCache := [],
    download := fun _ => .ok (remoteC4, "f.tgz"), activeLayer := none, tmpPaths := [] }

def fsC4 : OSFS :=
  { stat := fun p =>
      if p == "T/f.tgz" then some { isDir := false, isArchive := true }
      else none }

/-- C4 witness: resolving the URL source yields a `copyInfo` with
`noDecompress = true`, and even with decompression enabled on a recognized
archive the executor never dispatches to Untar for it. -/
theorem url_sources_never_untarred_witness :
    (({ root := "T", path := "f.tgz", hash := "rh", noDecompress := true } : copyInfo).noDecompress
        = true) ∧
    (∀ a b, performCopyForInfo fsC4 { root := "R", path := "dst", hash := "" }
        { root := "T", path := "f.tgz", hash := "rh", noDecompress := true }
        { decompress := true } ≠ .ok (.untar a b)) :=
  ⟨(url_sources_never_untarred oC4 "http://x/f.tgz" "/dest").1
      [{ root := "T", path := "f.tgz", hash := "rh", noDecompress := true }]
      { oC4 with tmpPaths := ["T"] } [Ev.hashFile "f.tgz"] (by decide) rfl
      { root := "T", path := "f.tgz", hash := "rh", noDecompress := true }
      (List.mem_singleton.mpr rfl),
   ((url_sources_never_untarred oC4 "http://x/f.tgz" "/dest").2 fsC4
      { root := "R", path := "dst", hash := "" }
      { root := "T", path := "f.tgz", hash := "rh", noDecompress := true }
      { decompress := true } rfl).1⟩

/-- C7: when a URL source's derived filename is empty, resolution fails with
"cannot determine filename for source" if the destination ends with `"/"`,
and otherwise proceeds under the fixed sentinel name `__unnamed__`;
`downloadSource` itself materializes the body under the sentinel name
whenever the derived filename is empty, while still returning the empty
derived name to the caller. -/
theorem url_empty_filename_handling (o : copier) (orig dest : String) (remote : Source)
    (hurl : isURL orig = true) (hdl : o.download orig = .ok (remote, "")) :
    (strHasSuffix dest "/" = true →
      getCopyInfoForSourcePath o orig dest = (.error (.cannotDetermineFilename orig), o, [])) ∧
    (strHasSuffix dest "/" = false → ∀ h, remote.hashAt unnamedFilename = some h →
      getCopyInfoForSourcePath o orig dest =
        (.ok [{ root := remote.root, path := unnamedFilename, hash := h, noDecompress := true }],
         { o with tmpPaths := o.tmpPaths ++ [remote.root] }, [Ev.hashFile unnamedFilename])) ∧
    (∀ env resp dr, env.resp = .ok resp →
      getFilenameForDownload env.urlPath resp = "" →
      downloadSource env = .ok dr → dr.fileName = unnamedFilename ∧ dr.filename = "") := by
  refine ⟨?_, ?_, ?_⟩
  · intro hsuf
    rw [getCopyInfoForSourcePath, if_neg (by simp [hurl]), hdl]
    dsimp only []
    rw [if_pos (by simp [hsuf])]
  · intro hsuf h hh
    rw [getCopyInfoForSourcePath, if_neg (by simp [hurl]), hdl]
    dsimp only []
    rw [if_neg (by simp [hsuf])]
    rw [if_pos (show (("" : String) == "") = true from rfl)]
    rw [hh]
  · intro env resp dr hr hfn hok
    by_cases hu : (!env.urlOK) = true
    · rw [downloadSource, if_pos hu] at hok
      exact absurd hok (by simp)
    · rw [downloadSource, if_neg hu, hr] at hok
      dsimp only [] at hok
      rw [hfn] at hok
      rw [if_pos (show (("" : String) == "") = true from rfl)] at hok
      rw [Except.ok.injEq] at hok
      have h1 := congrArg DownloadResult.fileName hok
      have h2 := congrArg DownloadResult.filename hok
      dsimp only [] at h1 h2
      exact ⟨h1.symm, h2.symm⟩

def remoteC7 : Source :=
  { root := "T7", entries := [{ path := "__unnamed__", isDir := false, hash := some "uh" }] }

def oC7 : copier :=
  { imageSource := none, source := none, pathCache := [],
    download := fun _ => .ok (remoteC7, ""), activeLayer := none, tmpPaths := [] }

/-- C7 witness: with an empty derived filename, destination `/dest/` fails
with the cannot-determine-filename error, while destination `/dest` resolves
one `copyInfo` under the sentinel name. -/
theorem url_empty_filename_handling_witness :
    getCopyInfoForSourcePath oC7 "http://x/" "/dest/" =
      (.error (.cannotDetermineFilename "http://x/"), oC7, []) ∧
    getCopyInfoForSourcePath oC7 "http://x/" "/dest" =
      (.ok [{ root := "T7", path := unnamedFilename, hash := "uh", noDecompress := true }],
       { oC7 with tmpPaths := ["T7"] }, [Ev.hashFile unnamedFilename]) :=
  ⟨(url_empty_filename_handling oC7 "http://x/" "/dest/" remoteC7 (by decide) rfl).1 (by decide),
   (url_empty_filename_handling oC7 "http://x/" "/dest" remoteC7 (by decide) rfl).2.1
     (by decide) "uh" rfl⟩
